import Mathlib

/-!
Verification of the strided, broadcasting-aware tensor compute kernels of
`minitorch/fast_ops.py`: elementwise map/zip, axis reduce, and batched
matrix multiply over flat storage buffers with explicit shape/stride
metadata.

Scalar storage values (float64 in the source) are modelled as exact
rationals `ℚ`; every concrete value appearing in the verified properties
is exactly representable in binary floating point, and none of the
properties depend on rounding behaviour.

A `Storage` is the flat buffer, `Shape` the per-dimension sizes and
`Strides` the per-dimension position multipliers.  Out-of-range buffer
reads (which the source never performs on valid calls) are modelled by
`List.getD` with default `0`; out-of-range writes by `List.set`, which is
a no-op there.
-/

namespace FastOpsModel

abbrev Storage := List ℚ

abbrev Shape := List ℕ

abbrev Strides := List ℕ

/-- Modelled from the spec: `to_index` from `tensor_data.py` (the file is not
part of the given sources).  Decomposes a flat ordinal into a per-dimension
coordinate, treating the last dimension as fastest-varying, by successive
integer division/modulo from the last axis backward to the first. -/
def to_index : ℕ → Shape → List ℕ
  | _, [] => []
  | o, s :: rest => (o / rest.prod) % s :: to_index (o % rest.prod) rest

/-- Modelled from the spec: `index_to_position` from `tensor_data.py` (not in
the given sources).  The flat storage offset of a coordinate is the dot
product of the coordinate with the strides. -/
def index_to_position (index : List ℕ) (strides : Strides) : ℕ :=
  (List.zipWith (· * ·) index strides).sum

/-- Modelled from the spec: `broadcast_index` from `tensor_data.py` (not in
the given sources).  Right-aligns `smallShape` under `bigShape`; for each
aligned dimension, if `smallShape`'s dimension is 1 the output coordinate is
0, otherwise it copies `bigIndex`'s value; dimensions of `bigShape` absent
from `smallShape` are dropped. -/
def broadcast_index (bigIndex : List ℕ) (bigShape smallShape : Shape) : List ℕ :=
  List.zipWith (fun d x => if d = 1 then 0 else x) smallShape
    (bigIndex.drop (bigShape.length - smallShape.length))

/-- Modelled from the spec: `shape_broadcast` from `tensor_data.py` (not in
the given sources).  Right-aligns the two shapes (padding the shorter on the
left with 1s); each aligned pair must be equal or contain a 1, and the result
takes the larger of the pair; otherwise the broadcast fails. -/
def shape_broadcast (a b : Shape) : Option Shape :=
  let n := max a.length b.length
  let a' := List.replicate (n - a.length) 1 ++ a
  let b' := List.replicate (n - b.length) 1 ++ b
  if (List.zip a' b').all (fun p => p.1 = p.2 || p.1 = 1 || p.2 = 1)
  then some (List.zipWith max a' b') else none

/-- Modelled from the spec: the contiguous (row-major) strides that the
tensor layer (`tensor_data.py`, not in the given sources) assigns to a
freshly allocated tensor: the stride of a dimension is the product of all
later dimensions. -/
def rowMajorStrides : Shape → Strides
  | [] => []
  | _ :: rest => rest.prod :: rowMajorStrides rest

/-- Modelled from the spec: the tensor objects of the higher layer
(`tensor.py`, not in the given sources) consist of a flat storage buffer
together with shape and stride metadata. -/
structure Tensor where
  storage : Storage
  shape : Shape
  strides : Strides
  deriving DecidableEq

/-- Modelled from the spec: `Tensor.zeros` of the tensor layer (not in the
given sources) allocates a zero-filled contiguous row-major tensor of the
requested shape. -/
def zeros (sh : Shape) : Tensor :=
  ⟨List.replicate sh.prod 0, sh, rowMajorStrides sh⟩

/-- Modelled from the spec: `Tensor.contiguous` of the tensor layer (not in
the given sources) materializes the tensor's logical values into a fresh
row-major buffer. -/
def contiguous (t : Tensor) : Tensor :=
  ⟨(List.range t.shape.prod).map
      (fun i => t.storage.getD (index_to_position (to_index i t.shape) t.strides) 0),
    t.shape, rowMajorStrides t.shape⟩

/-- Modelled from the spec: `Tensor.view` of the tensor layer (not in the
given sources) reinterprets a contiguous tensor's buffer under a new shape
with row-major strides. -/
def view (t : Tensor) (sh : Shape) : Tensor :=
  ⟨t.storage, sh, rowMajorStrides sh⟩

/-- The `_map` kernel of `tensor_map` (`fast_ops.py`, lines 163–204): for
every flat ordinal of the output, either the stride-aligned fast path
`out[i] = fn(in[i])` (when the input strides equal the output strides), or
the general path through coordinate decomposition, broadcast projection and
stride-based positions. -/
def _map (fn : ℚ → ℚ) (out : Storage) (outShape : Shape) (outStrides : Strides)
    (inStorage : Storage) (inShape : Shape) (inStrides : Strides) : Storage :=
  (List.range outShape.prod).foldl
    (fun acc i =>
      if inStrides = outStrides then
        acc.set i (fn (inStorage.getD i 0))
      else
        let outIndex := to_index i outShape
        let inIndex := broadcast_index outIndex outShape inShape
        let o := index_to_position outIndex outStrides
        let j := index_to_position inIndex inStrides
        acc.set o (fn (inStorage.getD j 0)))
    out

/-- The general (coordinate-decomposition) path of the `_map` kernel on its
own, used to compare the two paths of `_map`. -/
def _map_general (fn : ℚ → ℚ) (out : Storage) (outShape : Shape) (outStrides : Strides)
    (inStorage : Storage) (inShape : Shape) (inStrides : Strides) : Storage :=
  (List.range outShape.prod).foldl
    (fun acc i =>
      let outIndex := to_index i outShape
      let inIndex := broadcast_index outIndex outShape inShape
      let o := index_to_position outIndex outStrides
      let j := index_to_position inIndex inStrides
      acc.set o (fn (inStorage.getD j 0)))
    out

/-- The `_zip` kernel of `tensor_zip` (`fast_ops.py`, lines 230–282): fast
path when both operands' strides equal the output strides and the operand
shapes agree, general path through coordinate decomposition and independent
broadcast projection of both operands otherwise. -/
def _zip (fn : ℚ → ℚ → ℚ) (out : Storage) (outShape : Shape) (outStrides : Strides)
    (a : Storage) (aShape : Shape) (aStrides : Strides)
    (b : Storage) (bShape : Shape) (bStrides : Strides) : Storage :=
  (List.range outShape.prod).foldl
    (fun acc i =>
      if (aStrides = outStrides ∧ bStrides = outStrides) ∧ aShape = bShape then
        acc.set i (fn (a.getD i 0) (b.getD i 0))
      else
        let outIndex := to_index i outShape
        let o := index_to_position outIndex outStrides
        let aIndex := broadcast_index outIndex outShape aShape
        let j := index_to_position aIndex aStrides
        let bIndex := broadcast_index outIndex outShape bShape
        let k := index_to_position bIndex bStrides
        acc.set o (fn (a.getD j 0) (b.getD k 0)))
    out

/-- The `_reduce` kernel of `tensor_reduce` (`fast_ops.py`, lines 306–347):
for every flat ordinal of the output, decompose it into a coordinate,
compute the output position, then fold `fn` over the reduced axis in
ascending index order, reading and rewriting the output cell. -/
def _reduce (fn : ℚ → ℚ → ℚ) (out : Storage) (outShape : Shape) (outStrides : Strides)
    (a : Storage) (aShape : Shape) (aStrides : Strides) (reduceDim : ℕ) : Storage :=
  (List.range outShape.prod).foldl
    (fun acc i =>
      let outIndex := to_index i outShape
      let o := index_to_position outIndex outStrides
      (List.range (aShape.getD reduceDim 0)).foldl
        (fun acc2 j =>
          let p := index_to_position (outIndex.set reduceDim j) aStrides
          acc2.set o (fn (acc2.getD o 0) (a.getD p 0)))
        acc)
    out

/-- `_tensor_matrix_multiply` (`fast_ops.py`, lines 350–410): batched matrix
multiply with an effective batch stride of 0 for an operand whose batch
dimension is not greater than 1; for each `(n, i, j)` a private accumulator
sums the `k` products while the two read positions advance by the
corresponding inner strides, and is stored once at the end. -/
def _tensor_matrix_multiply (out : Storage) (outShape : Shape) (outStrides : Strides)
    (a : Storage) (aShape : Shape) (aStrides : Strides)
    (b : Storage) (bShape : Shape) (bStrides : Strides) : Storage :=
  let aBatchStride := if 1 < aShape.getD 0 0 then aStrides.getD 0 0 else 0
  let bBatchStride := if 1 < bShape.getD 0 0 then bStrides.getD 0 0 else 0
  (List.range (outShape.getD 0 0)).foldl
    (fun acc n =>
      (List.range (outShape.getD 1 0)).foldl
        (fun acc i =>
          (List.range (outShape.getD 2 0)).foldl
            (fun acc j =>
              let aPos := n * aBatchStride + i * aStrides.getD 1 0
              let bPos := n * bBatchStride + j * bStrides.getD 2 0
              let outPos := n * outStrides.getD 0 0 + i * outStrides.getD 1 0 +
                j * outStrides.getD 2 0
              let r := (List.range (aShape.getD (aShape.length - 1) 0)).foldl
                (fun st _ =>
                  (st.1 + a.getD st.2.1 0 * b.getD st.2.2 0,
                    st.2.1 + aStrides.getD 2 0, st.2.2 + bStrides.getD 1 0))
                ((0 : ℚ), aPos, bPos)
              acc.set outPos r.1)
            acc)
        acc)
    out

/-- Error taxonomy of the call-setup validation (spec section 7): a failed
broadcast of two shapes, or disagreeing matrix-multiply inner dimensions. -/
inductive KernelError where
  | ShapeMismatch : KernelError
  | DimensionMismatch : KernelError
  deriving DecidableEq

namespace FastOps

/-- `FastOps.reduce` (`fast_ops.py`, lines 69–87): the returned operation
builds the output shape by collapsing the reduced dimension to 1, allocates
the output tensor, pre-fills its storage with `start`, and invokes the
reduce kernel. -/
def reduce (fn : ℚ → ℚ → ℚ) (start : ℚ) (a : Tensor) (dim : ℕ) : Tensor :=
  let outShape := a.shape.set dim 1
  let out := zeros outShape
  let filled := List.replicate out.storage.length start
  ⟨_reduce fn filled out.shape out.strides a.storage a.shape a.strides dim,
    out.shape, out.strides⟩

/-- The rank-2-to-rank-3 promotion step of `FastOps.matrix_multiply`
(`fast_ops.py`, lines 115–123): a rank-2 tensor is replaced by a contiguous
view with a prepended batch dimension of size 1. -/
def promote2 (t : Tensor) : Tensor :=
  if t.shape.length = 2 then view (contiguous t) [1, t.shape.getD 0 0, t.shape.getD 1 0]
  else t

/-- `FastOps.matrix_multiply` (`fast_ops.py`, lines 89–136): rank-2 operands
are promoted to rank-3 by a contiguous view with a prepended batch dimension
of size 1; the batch prefixes are broadcast (failing with `ShapeMismatch` if
incompatible); the inner dimensions are checked (failing with
`DimensionMismatch` if unequal); then the kernel runs into a freshly
allocated output, which is squeezed back to rank 2 when both inputs were
rank 2. -/
def matrix_multiply (a b : Tensor) : Except KernelError Tensor :=
  let both2d := a.shape.length = 2 ∧ b.shape.length = 2
  let a' := promote2 a
  let b' := promote2 b
  match shape_broadcast (a'.shape.take (a'.shape.length - 2))
      (b'.shape.take (b'.shape.length - 2)) with
  | none => .error .ShapeMismatch
  | some ls0 =>
    let ls := ls0 ++ [a'.shape.getD (a'.shape.length - 2) 0,
      b'.shape.getD (b'.shape.length - 1) 0]
    if a'.shape.getD (a'.shape.length - 1) 0 ≠ b'.shape.getD (b'.shape.length - 2) 0 then
      .error .DimensionMismatch
    else
      let out := zeros ls
      let res : Tensor :=
        ⟨_tensor_matrix_multiply out.storage out.shape out.strides
            a'.storage a'.shape a'.strides b'.storage b'.shape b'.strides,
          out.shape, out.strides⟩
      .ok (if both2d then view res [res.shape.getD 1 0, res.shape.getD 2 0] else res)

end FastOps

deriving instance DecidableEq for Except

/-! ### List helper lemmas -/

theorem getD_set_self {α} (l : List α) (i : ℕ) (x d : α) (h : i < l.length) :
    (l.set i x).getD i d = x := by
  induction l generalizing i with
  | nil => simp at h
  | cons y ys ih =>
    cases i with
    | zero => rfl
    | succ n => simpa using ih n (by simpa using h)

theorem getD_set_ne {α} (l : List α) (i j : ℕ) (x d : α) (h : i ≠ j) :
    (l.set i x).getD j d = l.getD j d := by
  induction l generalizing i j with
  | nil => simp [List.set]
  | cons y ys ih =>
    cases i with
    | zero => cases j with
      | zero => exact absurd rfl h
      | succ m => rfl
    | succ n => cases j with
      | zero => rfl
      | succ m => simpa using ih n m (by omega)

/-- A fold of position-targeted writes leaves positions it never targets
unchanged; the written values may depend on the accumulator. -/
theorem getD_foldl_keep {ι : Type} (f : ι → ℕ) (g : ι → Storage → ℚ) (l : List ι)
    (init : Storage) (q : ℕ) (h : ∀ x ∈ l, f x ≠ q) :
    (l.foldl (fun acc x => acc.set (f x) (g x acc)) init).getD q 0 = init.getD q 0 := by
  induction l generalizing init with
  | nil => rfl
  | cons y ys ih =>
    rw [List.foldl_cons, ih _ (fun x hx => h x (List.mem_cons_of_mem y hx))]
    exact getD_set_ne _ _ _ _ _ (h y (List.mem_cons_self y ys))

/-- Once a targeted position holds a value that every later write to that
position would rewrite identically, the value is stable over the fold. -/
theorem getD_foldl_stable {ι : Type} (f : ι → ℕ) (v : ι → ℚ) (l : List ι)
    (init : Storage) (q : ℕ) (c : ℚ) (hstart : init.getD q 0 = c)
    (h : ∀ x ∈ l, f x = q → v x = c) :
    (l.foldl (fun acc x => acc.set (f x) (v x)) init).getD q 0 = c := by
  induction l generalizing init with
  | nil => exact hstart
  | cons y ys ih =>
    rw [List.foldl_cons]
    refine ih _ ?_ (fun x hx hfx => h x (List.mem_cons_of_mem y hx) hfx)
    by_cases hy : f y = q
    · by_cases hq : q < init.length
      · rw [hy, getD_set_self _ _ _ _ hq]
        exact h y (List.mem_cons_self y ys) hy
      · rw [List.set_eq_of_length_le (by omega)]
        exact hstart
    · rw [getD_set_ne _ _ _ _ _ hy]
      exact hstart

/-- A fold of position-targeted writes whose values do not depend on the
accumulator: if `x₀` is the only list element targeting position `q`, the
final value at `q` is `v x₀`. -/
theorem getD_foldl_write {ι : Type} (f : ι → ℕ) (v : ι → ℚ) (l : List ι)
    (init : Storage) (q : ℕ) (x₀ : ι) (hmem : x₀ ∈ l) (hf : f x₀ = q)
    (hq : q < init.length)
    (huniq : ∀ x ∈ l, f x = q → f x = f x₀ → v x = v x₀) :
    (l.foldl (fun acc x => acc.set (f x) (v x)) init).getD q 0 = v x₀ := by
  induction l generalizing init with
  | nil => simp at hmem
  | cons y ys ih =>
    rw [List.foldl_cons]
    by_cases hy : f y = q
    · refine getD_foldl_stable f v ys _ q (v x₀) ?_ ?_
      · rw [hy, getD_set_self _ _ _ _ hq]
        exact huniq y (List.mem_cons_self y ys) hy (by rw [hy, hf])
      · exact fun x hx hfx =>
          huniq x (List.mem_cons_of_mem y hx) hfx (by rw [hfx, hf])
    · have hmem' : x₀ ∈ ys := by
        rcases List.mem_cons.1 hmem with h | h
        · exact absurd (h ▸ hf) hy
        · exact h
      exact ih (init.set (f y) (v y)) hmem' (by simpa using hq)
        (fun x hx hfx h2 => huniq x (List.mem_cons_of_mem y hx) hfx h2)

/-- Rewriting a cell with its own current value is the identity. -/
theorem set_getD_self (l : Storage) (o : ℕ) (h : o < l.length) :
    l.set o (l.getD o 0) = l := by
  rw [List.getD_eq_getElem l 0 h]
  apply List.ext_getElem <;> simp [List.getElem_set]
  intro n h1 h2
  rintro rfl
  rfl

/-- Writes at a single fixed position collapse to one write of the scalar
left fold of the stored value. -/
theorem foldl_set_same {γ : Type} (o : ℕ) (step : ℚ → γ → ℚ) (l : List γ)
    (acc : Storage) :
    l.foldl (fun a2 x => a2.set o (step (a2.getD o 0) x)) acc
      = acc.set o (l.foldl step (acc.getD o 0)) := by
  by_cases ho : o < acc.length
  · induction l generalizing acc with
    | nil =>
      rw [List.foldl_nil, List.foldl_nil]
      exact (set_getD_self acc o ho).symm
    | cons x xs ih =>
      rw [List.foldl_cons, List.foldl_cons,
        ih (acc.set o (step (acc.getD o 0) x)) (by simpa using ho),
        getD_set_self _ _ _ _ ho, List.set_set]
  · have hset : ∀ z : ℚ, acc.set o z = acc :=
      fun z => List.set_eq_of_length_le (by omega)
    rw [hset]
    induction l generalizing acc with
    | nil => simp [hset]
    | cons x xs ih =>
      rw [List.foldl_cons, hset]
      exact ih acc ho hset

/-- A fold over `List.range n` writing position `i` at iteration `i`, whose
written value may read the written cell: final cell `q < n` holds `g q`
applied to the initial cell value. -/
theorem getD_foldl_range_update (g : ℕ → ℚ → ℚ) (n : ℕ) (init : Storage) (q : ℕ)
    (hq : q < n) (hlen : q < init.length) :
    ((List.range n).foldl (fun acc i => acc.set i (g i (acc.getD i 0))) init).getD q 0
      = g q (init.getD q 0) := by
  have key : ∀ l : List ℕ, l.Nodup → ∀ init : Storage, q ∈ l → q < init.length →
      (l.foldl (fun acc i => acc.set i (g i (acc.getD i 0))) init).getD q 0
        = g q (init.getD q 0) := by
    intro l hnd
    induction l with
    | nil => intro init hmem _; simp at hmem
    | cons y ys ih =>
      intro init hmem hlen'
      rw [List.foldl_cons]
      by_cases hy : y = q
      · subst hy
        have hys : ∀ x ∈ ys, (fun i => i) x ≠ y := by
          intro x hx
          simp only []
          exact fun hxy => (List.nodup_cons.1 hnd).1 (hxy ▸ hx)
        rw [getD_foldl_keep (fun i => i) (fun i acc => g i (acc.getD i 0)) ys _ y hys]
        exact getD_set_self _ _ _ _ hlen'
      · have hmem' : q ∈ ys := by
          rcases List.mem_cons.1 hmem with h | h
          · exact absurd h.symm hy
          · exact h
        rw [ih (List.nodup_cons.1 hnd).2 _ hmem' (by simpa using hlen'),
          getD_set_ne _ _ _ _ _ hy]
  exact key (List.range n) (List.nodup_range n) init (List.mem_range.2 hq) hlen

/-- Specialization of `getD_foldl_write` to folds over `List.range n`
writing position `i` at iteration `i` with accumulator-independent values. -/
theorem getD_foldl_range_write (v : ℕ → ℚ) (n : ℕ) (init : Storage) (q : ℕ)
    (hq : q < n) (hlen : q < init.length) :
    ((List.range n).foldl (fun acc i => acc.set i (v i)) init).getD q 0 = v q :=
  getD_foldl_write (fun i => i) v (List.range n) init q q (List.mem_range.2 hq)
    rfl hlen (fun x _ _ h2 => congrArg v h2)

/-- A fold over a flattened list of lists is the nested fold. -/
theorem foldl_flatMap {β γ δ : Type} (l : List β) (g : β → List γ)
    (f : δ → γ → δ) (init : δ) :
    (l.flatMap g).foldl f init = l.foldl (fun acc x => (g x).foldl f acc) init := by
  induction l generalizing init with
  | nil => rfl
  | cons y ys ih => rw [List.flatMap_cons, List.foldl_append, List.foldl_cons, ih]

/-! ### Index/position round-trip lemmas -/

/-- A valid coordinate's row-major position lies below the shape's size. -/
theorem index_to_position_lt (sh c : Shape) (h : List.Forall₂ (· < ·) c sh) :
    index_to_position c (rowMajorStrides sh) < sh.prod := by
  induction h with
  | nil => simp [index_to_position]
  | @cons x s c' rest hxs _ ih =>
    have hP : index_to_position c' (rowMajorStrides rest) < rest.prod := ih
    calc index_to_position (x :: c') (rowMajorStrides (s :: rest))
        = x * rest.prod + index_to_position c' (rowMajorStrides rest) := by
          simp [index_to_position, rowMajorStrides]
      _ < x * rest.prod + rest.prod := by omega
      _ = (x + 1) * rest.prod := by ring
      _ ≤ s * rest.prod := Nat.mul_le_mul_right _ (by omega)
      _ = (s :: rest).prod := by simp

/-- Decomposing an ordinal below the shape's size and recomposing it with the
row-major strides gives the ordinal back. -/
theorem index_to_position_to_index (sh : Shape) (i : ℕ) (h : i < sh.prod) :
    index_to_position (to_index i sh) (rowMajorStrides sh) = i := by
  induction sh generalizing i with
  | nil =>
    simp at h
    simp [h, to_index, index_to_position]
  | cons s rest ih =>
    have hsp : i < s * rest.prod := by simpa using h
    have hP : 0 < rest.prod := by
      rcases Nat.eq_zero_or_pos rest.prod with h0 | h0
      · rw [h0, Nat.mul_zero] at hsp; omega
      · exact h0
    have hdiv : i / rest.prod < s := (Nat.div_lt_iff_lt_mul hP).2 (by omega)
    have hmod : i % rest.prod < rest.prod := Nat.mod_lt _ hP
    simp only [to_index, index_to_position, rowMajorStrides, List.zipWith_cons_cons,
      List.sum_cons]
    rw [Nat.mod_eq_of_lt hdiv]
    have := ih (i % rest.prod) hmod
    simp only [index_to_position] at this
    rw [this, Nat.mul_comm, Nat.div_add_mod]

/-- Composing a valid coordinate to a row-major position and decomposing it
again gives the coordinate back. -/
theorem to_index_index_to_position (sh c : Shape) (h : List.Forall₂ (· < ·) c sh) :
    to_index (index_to_position c (rowMajorStrides sh)) sh = c := by
  induction h with
  | nil => simp [to_index, index_to_position]
  | @cons x s c' rest hxs htail ih =>
    have ht : index_to_position c' (rowMajorStrides rest) < rest.prod :=
      index_to_position_lt rest c' htail
    have hP : 0 < rest.prod := by omega
    have hcons : index_to_position (x :: c') (rowMajorStrides (s :: rest))
        = x * rest.prod + index_to_position c' (rowMajorStrides rest) := by
      simp [index_to_position, rowMajorStrides]
    have h1 : (x * rest.prod + index_to_position c' (rowMajorStrides rest)) / rest.prod = x := by
      rw [show x * rest.prod + index_to_position c' (rowMajorStrides rest)
          = index_to_position c' (rowMajorStrides rest) + rest.prod * x by ring,
        Nat.add_mul_div_left _ _ hP, Nat.div_eq_of_lt ht]
      omega
    have h2 : (x * rest.prod + index_to_position c' (rowMajorStrides rest)) % rest.prod
        = index_to_position c' (rowMajorStrides rest) := by
      rw [show x * rest.prod + index_to_position c' (rowMajorStrides rest)
          = index_to_position c' (rowMajorStrides rest) + rest.prod * x by ring,
        Nat.add_mul_mod_self_left]
      exact Nat.mod_eq_of_lt ht
    rw [hcons]
    simp only [to_index]
    rw [h1, h2, Nat.mod_eq_of_lt hxs, ih]

/-- Decomposing an ordinal below the shape's size yields a valid coordinate. -/
theorem to_index_valid (sh : Shape) (i : ℕ) (h : i < sh.prod) :
    List.Forall₂ (· < ·) (to_index i sh) sh := by
  induction sh generalizing i with
  | nil => simp [to_index]
  | cons s rest ih =>
    have hsp : i < s * rest.prod := by simpa using h
    have hs : 0 < s := by
      rcases Nat.eq_zero_or_pos s with h0 | h0
      · rw [h0, Nat.zero_mul] at hsp; omega
      · exact h0
    have hP : 0 < rest.prod := by
      rcases Nat.eq_zero_or_pos rest.prod with h0 | h0
      · rw [h0, Nat.mul_zero] at hsp; omega
      · exact h0
    refine List.Forall₂.cons (Nat.mod_lt _ hs) (ih _ ?_)
    have := Nat.mod_lt i hP
    omega

/-- `to_index` produces a coordinate of the shape's rank. -/
theorem to_index_length (i : ℕ) (sh : Shape) : (to_index i sh).length = sh.length := by
  induction sh generalizing i with
  | nil => rfl
  | cons s rest ih => simp [to_index, ih]

/-! ### Broadcast lemmas -/

theorem zipWith_max_self (l : List ℕ) : List.zipWith max l l = l := by
  induction l with
  | nil => rfl
  | cons x xs ih => simp [ih]

/-- Every pair in the zip of a list with itself has equal components. -/
theorem zip_self_eq (sh : List ℕ) : ∀ p ∈ List.zip sh sh, p.1 = p.2 := by
  induction sh with
  | nil => simp
  | cons x xs ih =>
    intro p hp
    rw [List.zip_cons_cons] at hp
    rcases List.mem_cons.1 hp with h | h
    · rw [h]
    · exact ih p h

/-- Broadcasting a shape with itself succeeds and returns the shape. -/
theorem shape_broadcast_self (sh : Shape) : shape_broadcast sh sh = some sh := by
  simp only [shape_broadcast, Nat.max_self, Nat.sub_self, List.replicate_zero,
    List.nil_append]
  rw [if_pos, zipWith_max_self]
  refine List.all_eq_true.2 (fun p hp => ?_)
  simp [zip_self_eq sh p hp]

/-- Projecting a valid coordinate of a shape into the same shape is the
identity. -/
theorem broadcast_index_self (c : List ℕ) (sh : Shape)
    (h : List.Forall₂ (· < ·) c sh) : broadcast_index c sh sh = c := by
  simp only [broadcast_index, Nat.sub_self, List.drop_zero]
  induction h with
  | nil => rfl
  | @cons x s c' rest hxs _ ih =>
    rw [List.zipWith_cons_cons, ih]
    congr 1
    by_cases hs : s = 1
    · subst hs
      have hx0 : x = 0 := by omega
      simp [hx0]
    · simp [hs]

/-! ### Kernel characterization lemmas -/

/-- The value a `_reduce` call leaves at output cell `i` (with contiguous
row-major output strides): the scalar left fold, in ascending axis order, of
`fn` over the input positions obtained by varying the reduced coordinate,
seeded by the cell's initial value. -/
theorem reduce_getD (fn : ℚ → ℚ → ℚ) (init a : Storage) (outShape aShape : Shape)
    (aStrides : Strides) (dim i : ℕ) (hi : i < outShape.prod)
    (hlen : i < init.length) :
    (_reduce fn init outShape (rowMajorStrides outShape) a aShape aStrides dim).getD i 0
      = (List.range (aShape.getD dim 0)).foldl
          (fun s j =>
            fn s (a.getD (index_to_position ((to_index i outShape).set dim j) aStrides) 0))
          (init.getD i 0) := by
  simp only [_reduce]
  have hbody : ∀ (acc : Storage) (k : ℕ), k ∈ List.range outShape.prod →
      (List.range (aShape.getD dim 0)).foldl
        (fun acc2 j =>
          acc2.set (index_to_position (to_index k outShape) (rowMajorStrides outShape))
            (fn (acc2.getD (index_to_position (to_index k outShape) (rowMajorStrides outShape)) 0)
              (a.getD (index_to_position ((to_index k outShape).set dim j) aStrides) 0)))
        acc
      = acc.set k
          ((List.range (aShape.getD dim 0)).foldl
            (fun s j =>
              fn s (a.getD (index_to_position ((to_index k outShape).set dim j) aStrides) 0))
            (acc.getD k 0)) := by
    intro acc k hk
    have h1 := foldl_set_same
      (index_to_position (to_index k outShape) (rowMajorStrides outShape))
      (fun s j =>
        fn s (a.getD (index_to_position ((to_index k outShape).set dim j) aStrides) 0))
      (List.range (aShape.getD dim 0)) acc
    exact h1.trans (by rw [index_to_position_to_index outShape k (List.mem_range.1 hk)])
  rw [List.foldl_ext _ _ _ hbody]
  exact getD_foldl_range_update
    (fun k s =>
      (List.range (aShape.getD dim 0)).foldl
        (fun s2 j =>
          fn s2 (a.getD (index_to_position ((to_index k outShape).set dim j) aStrides) 0)) s)
    outShape.prod init i hi hlen

/-- The value a `_zip` call (with contiguous row-major output strides)
leaves at output position `q`: on the stride-and-shape-aligned fast path the
direct elementwise combination, otherwise the combination of the two
broadcast-projected reads. -/
theorem zip_getD (fn : ℚ → ℚ → ℚ) (init a b : Storage) (outShape aShape bShape : Shape)
    (aStrides bStrides : Strides) (q : ℕ) (hq : q < outShape.prod)
    (hlen : q < init.length) :
    (_zip fn init outShape (rowMajorStrides outShape) a aShape aStrides
        b bShape bStrides).getD q 0
      = if (aStrides = rowMajorStrides outShape ∧ bStrides = rowMajorStrides outShape)
            ∧ aShape = bShape then
          fn (a.getD q 0) (b.getD q 0)
        else
          fn (a.getD (index_to_position
                (broadcast_index (to_index q outShape) outShape aShape) aStrides) 0)
             (b.getD (index_to_position
                (broadcast_index (to_index q outShape) outShape bShape) bStrides) 0) := by
  have hbody : ∀ (acc : Storage), ∀ k ∈ List.range outShape.prod,
      (if (aStrides = rowMajorStrides outShape ∧ bStrides = rowMajorStrides outShape)
          ∧ aShape = bShape then
        acc.set k (fn (a.getD k 0) (b.getD k 0))
      else
        acc.set (index_to_position (to_index k outShape) (rowMajorStrides outShape))
          (fn (a.getD (index_to_position
                (broadcast_index (to_index k outShape) outShape aShape) aStrides) 0)
             (b.getD (index_to_position
                (broadcast_index (to_index k outShape) outShape bShape) bStrides) 0)))
      = acc.set k
          (if (aStrides = rowMajorStrides outShape ∧ bStrides = rowMajorStrides outShape)
              ∧ aShape = bShape then
            fn (a.getD k 0) (b.getD k 0)
          else
            fn (a.getD (index_to_position
                  (broadcast_index (to_index k outShape) outShape aShape) aStrides) 0)
               (b.getD (index_to_position
                  (broadcast_index (to_index k outShape) outShape bShape) bStrides) 0)) := by
    intro acc k hk
    by_cases hC : (aStrides = rowMajorStrides outShape ∧ bStrides = rowMajorStrides outShape)
        ∧ aShape = bShape
    · rw [if_pos hC, if_pos hC]
    · rw [if_neg hC, if_neg hC, index_to_position_to_index outShape k (List.mem_range.1 hk)]
  simp only [_zip]
  rw [List.foldl_ext _ _ _ hbody]
  exact getD_foldl_range_write
    (fun k =>
      if (aStrides = rowMajorStrides outShape ∧ bStrides = rowMajorStrides outShape)
          ∧ aShape = bShape then
        fn (a.getD k 0) (b.getD k 0)
      else
        fn (a.getD (index_to_position
              (broadcast_index (to_index k outShape) outShape aShape) aStrides) 0)
           (b.getD (index_to_position
              (broadcast_index (to_index k outShape) outShape bShape) bStrides) 0))
    outShape.prod init q hq hlen

/-! ### Matrix-multiply machinery -/

/-- The inner `k` loop of `_tensor_matrix_multiply`: starting from sum `s₀`
and read positions `ap`, `bp` advancing by `da`, `db`, after `K` steps the
state is the partial-product sum and the advanced positions. -/
theorem matmul_inner_state (a b : Storage) (da db : ℕ) (K : ℕ) (s₀ : ℚ) (ap bp : ℕ) :
    (List.range K).foldl
        (fun st _ =>
          (st.1 + a.getD st.2.1 0 * b.getD st.2.2 0, st.2.1 + da, st.2.2 + db))
        (s₀, ap, bp)
      = (s₀ + ∑ k ∈ Finset.range K, a.getD (ap + k * da) 0 * b.getD (bp + k * db) 0,
          ap + K * da, bp + K * db) := by
  induction K with
  | zero => simp
  | succ K ih =>
    rw [List.range_succ, List.foldl_append, ih]
    simp only [List.foldl_cons, List.foldl_nil, Finset.sum_range_succ]
    refine Prod.ext ?_ (Prod.ext ?_ ?_)
    · simp [add_assoc]
    · simp [Nat.succ_mul, Nat.add_assoc]
    · simp [Nat.succ_mul, Nat.add_assoc]

/-- The row-major encoding of an in-range triple `(n, i, j)` is bounded by
the total size. -/
theorem encode3_lt (N I J n i j : ℕ) (hn : n < N) (hi : i < I) (hj : j < J) :
    n * (I * J) + i * J + j < N * (I * J) := by
  have h1 : n * (I * J) + i * J + j < (n * I + i + 1) * J := by
    calc n * (I * J) + i * J + j = (n * I + i) * J + j := by ring
      _ < (n * I + i) * J + J := by omega
      _ = (n * I + i + 1) * J := by ring
  have h2 : (n * I + i + 1) * J ≤ (N * I) * J := by
    refine Nat.mul_le_mul_right _ ?_
    have : n * I + I ≤ N * I := by
      calc n * I + I = (n + 1) * I := by ring
        _ ≤ N * I := Nat.mul_le_mul_right _ (by omega)
    omega
  calc n * (I * J) + i * J + j < (n * I + i + 1) * J := h1
    _ ≤ (N * I) * J := h2
    _ = N * (I * J) := by ring

/-- The row-major encoding of in-range triples is injective. -/
theorem encode3_inj (I J n i j n' i' j' : ℕ) (hi : i < I) (hj : j < J)
    (hi' : i' < I) (hj' : j' < J)
    (h : n * (I * J) + i * J + j = n' * (I * J) + i' * J + j') :
    n = n' ∧ i = i' ∧ j = j' := by
  have hJ : 0 < J := by omega
  have key : ∀ m x y : ℕ, y < J → (m * (I * J) + x * J + y) % J = y ∧
      (m * (I * J) + x * J + y) / J = m * I + x := by
    intro m x y hy
    have hform : m * (I * J) + x * J + y = y + J * (m * I + x) := by ring
    constructor
    · rw [hform, Nat.add_mul_mod_self_left]
      exact Nat.mod_eq_of_lt hy
    · rw [hform, Nat.add_mul_div_left _ _ hJ, Nat.div_eq_of_lt hy]
      omega
  have hI : 0 < I := by omega
  have hmod := (key n i j hj).1.symm.trans (h ▸ (key n' i' j' hj').1)
  have hdiv := (key n i j hj).2.symm.trans (h ▸ (key n' i' j' hj').2)
  have key2 : ∀ m x : ℕ, x < I → (m * I + x) % I = x ∧ (m * I + x) / I = m := by
    intro m x hx
    have hform : m * I + x = x + I * m := by ring
    constructor
    · rw [hform, Nat.add_mul_mod_self_left]
      exact Nat.mod_eq_of_lt hx
    · rw [hform, Nat.add_mul_div_left _ _ hI, Nat.div_eq_of_lt hx]
      omega
  have hmod2 := (key2 n i hi).1.symm.trans (hdiv ▸ (key2 n' i' hi').1)
  have hdiv2 := (key2 n i hi).2.symm.trans (hdiv ▸ (key2 n' i' hi').2)
  exact ⟨hdiv2, hmod2, hmod⟩

/-- Final cell value of a triple nested loop of position-targeted writes
(the loop structure of `_tensor_matrix_multiply`): if `(n, i, j)` targets
cell `q` and every in-range triple targeting `q` writes the same value, the
final value at `q` is the value written by `(n, i, j)`. -/
theorem getD_foldl3_set (N I J : ℕ) (e : ℕ → ℕ → ℕ → ℕ) (v : ℕ → ℕ → ℕ → ℚ)
    (init : Storage) (q n i j : ℕ) (hn : n < N) (hi : i < I) (hj : j < J)
    (he : e n i j = q) (hq : q < init.length)
    (huniq : ∀ n' i' j', n' < N → i' < I → j' < J → e n' i' j' = q →
      v n' i' j' = v n i j) :
    ((List.range N).foldl
        (fun acc n' =>
          (List.range I).foldl
            (fun acc i' =>
              (List.range J).foldl (fun acc j' => acc.set (e n' i' j') (v n' i' j')) acc)
            acc)
        init).getD q 0
      = v n i j := by
  have hflat :
      ((List.range N).flatMap (fun n' => (List.range I).flatMap (fun i' =>
          (List.range J).map (fun j' => (n', i', j'))))).foldl
        (fun acc t => acc.set (e t.1 t.2.1 t.2.2) (v t.1 t.2.1 t.2.2)) init
      = (List.range N).foldl
          (fun acc n' =>
            (List.range I).foldl
              (fun acc i' =>
                (List.range J).foldl
                  (fun acc j' => acc.set (e n' i' j') (v n' i' j')) acc)
              acc)
          init := by
    rw [foldl_flatMap]
    refine List.foldl_ext _ _ init (fun acc n' _ => ?_)
    rw [foldl_flatMap]
    refine List.foldl_ext _ _ acc (fun acc2 i' _ => ?_)
    rw [List.foldl_map]
  rw [← hflat]
  refine getD_foldl_write (fun t => e t.1 t.2.1 t.2.2) (fun t => v t.1 t.2.1 t.2.2) _
    init q (n, i, j) ?_ he hq ?_
  · simp only [List.mem_flatMap, List.mem_map, List.mem_range]
    exact ⟨n, hn, i, hi, j, hj, rfl⟩
  · intro t ht hfq _
    simp only [List.mem_flatMap, List.mem_map, List.mem_range] at ht
    obtain ⟨n', hn', i', hi', j', hj', rfl⟩ := ht
    exact huniq n' i' j' hn' hi' hj' hfq

/-! ### Claim C1 -/

/-- C1: for every call of the batched matrix-multiply kernel on rank-3
operands `[Na, I, K]` and `[Nb, K, J]` with broadcast-compatible batch
dimensions, output shape `[max Na Nb, I, J]` and contiguous row-major output
strides, every output entry satisfies
`out[n,i,j] = Σ_k a[n,i,k] * b[n,k,j]`, where an operand whose batch
dimension is 1 uses batch index 0 for every `n`. -/
theorem c1_matmul_batched_entries (a b out₀ : Storage) (Na Nb I J K : ℕ)
    (as0 as1 as2 bs0 bs1 bs2 : ℕ)
    (hcompat : Na = Nb ∨ Na = 1 ∨ Nb = 1)
    (hlen : out₀.length = max Na Nb * (I * J))
    (n i j : ℕ) (hn : n < max Na Nb) (hi : i < I) (hj : j < J) :
    (_tensor_matrix_multiply out₀ [max Na Nb, I, J] [I * J, J, 1]
        a [Na, I, K] [as0, as1, as2] b [Nb, K, J] [bs0, bs1, bs2]).getD
        (n * (I * J) + i * J + j) 0
      = ∑ k ∈ Finset.range K,
          a.getD ((if Na = 1 then 0 else n) * as0 + i * as1 + k * as2) 0 *
          b.getD ((if Nb = 1 then 0 else n) * bs0 + k * bs1 + j * bs2) 0 := by
  have hq : n * (I * J) + i * J + j < out₀.length := by
    rw [hlen]
    exact encode3_lt _ _ _ _ _ _ hn hi hj
  simp only [_tensor_matrix_multiply, List.getD_cons_zero, List.getD_cons_succ,
    List.length_cons, List.length_nil]
  refine Eq.trans (getD_foldl3_set (max Na Nb) I J
    (fun n' i' j' => n' * (I * J) + i' * J + j' * 1)
    (fun n' i' j' =>
      ((List.range K).foldl
        (fun st _ =>
          (st.1 + a.getD st.2.1 0 * b.getD st.2.2 0, st.2.1 + as2, st.2.2 + bs1))
        (0, (n' * if 1 < Na then as0 else 0) + i' * as1,
          (n' * if 1 < Nb then bs0 else 0) + j' * bs2)).1)
    out₀ (n * (I * J) + i * J + j) n i j hn hi hj (by ring) hq ?_) ?_
  · intro n' i' j' hn' hi' hj' he
    have he2 : n' * (I * J) + i' * J + j' * 1 = n * (I * J) + i * J + j := he
    rw [Nat.mul_one] at he2
    obtain ⟨rfl, rfl, rfl⟩ := encode3_inj I J n' i' j' n i j hi' hj' hi hj he2
    rfl
  show ((List.range K).foldl
      (fun st _ =>
        (st.1 + a.getD st.2.1 0 * b.getD st.2.2 0, st.2.1 + as2, st.2.2 + bs1))
      (0, (n * if 1 < Na then as0 else 0) + i * as1,
        (n * if 1 < Nb then bs0 else 0) + j * bs2)).1
    = ∑ k ∈ Finset.range K,
        a.getD ((if Na = 1 then 0 else n) * as0 + i * as1 + k * as2) 0 *
        b.getD ((if Nb = 1 then 0 else n) * bs0 + k * bs1 + j * bs2) 0
  rw [matmul_inner_state]
  have hA : (n * if 1 < Na then as0 else 0) + i * as1
      = (if Na = 1 then 0 else n) * as0 + i * as1 := by
    congr 1
    rcases Nat.lt_or_ge 1 Na with h1 | h1
    · rw [if_pos h1, if_neg (by omega)]
    · interval_cases Na
      · rw [if_neg (by omega), if_neg (by omega)]
        have hmax : max 0 Nb = Nb := by omega
        have hn0 : n = 0 := by
          rcases hcompat with h | h | h
          · omega
          · omega
          · omega
        simp [hn0]
      · simp
  have hB : (n * if 1 < Nb then bs0 else 0) + j * bs2
      = (if Nb = 1 then 0 else n) * bs0 + j * bs2 := by
    congr 1
    rcases Nat.lt_or_ge 1 Nb with h1 | h1
    · rw [if_pos h1, if_neg (by omega)]
    · interval_cases Nb
      · rw [if_neg (by omega), if_neg (by omega)]
        have hn0 : n = 0 := by
          rcases hcompat with h | h | h
          · omega
          · omega
          · omega
        simp [hn0]
      · simp
  simp only [hA, hB]
  rw [zero_add]
  refine Finset.sum_congr rfl (fun k _ => ?_)
  rw [Nat.add_right_comm ((if Nb = 1 then 0 else n) * bs0) (j * bs2) (k * bs1)]

/-- Witness for C1 at a concrete batched-broadcast instance:
`a : [1,1,2]`, `b : [2,2,1]`, batch dimension of `a` broadcast over the 2
batches of `b`; entry `(1,0,0)` is `1·30 + 2·40 = 110`. -/
theorem c1_matmul_batched_entries_witness :
    (_tensor_matrix_multiply [0, 0] [max 1 2, 1, 1] [1 * 1, 1, 1]
        [1, 2] [1, 1, 2] [2, 2, 1]
        [10, 20, 30, 40] [2, 2, 1] [2, 1, 1]).getD
        (1 * (1 * 1) + 0 * 1 + 0) 0 = 110 :=
  (c1_matmul_batched_entries [1, 2] [10, 20, 30, 40] [0, 0] 1 2 1 1 2
      2 2 1 2 1 1 (Or.inr (Or.inl rfl)) (by decide) 1 0 0 (by decide) (by decide)
      (by decide)).trans (by norm_num [Finset.sum_range_succ])

/-! ### Claims C2, C6, C9, C10 (reduce) -/

theorem getD_replicate_lt (n : ℕ) (x : ℚ) (i : ℕ) (h : i < n) :
    (List.replicate n x).getD i 0 = x := by
  simp [List.getD, List.getElem?_replicate, h]

/-- C2: for every reduce call (output shape equal to the input shape with
the reduced axis collapsed to 1, contiguous row-major output strides, output
storage pre-filled with `start`), each output cell equals the left fold of
`fn` over the reduced axis in strictly ascending index order seeded by
`start`. -/
theorem c2_reduce_fold_order (fn : ℚ → ℚ → ℚ) (start : ℚ) (a : Storage)
    (aShape : Shape) (aStrides : Strides) (dim : ℕ) (outShape : Shape)
    (houtShape : outShape = aShape.set dim 1) (hdim : dim < aShape.length)
    (i : ℕ) (hi : i < outShape.prod) :
    (_reduce fn (List.replicate outShape.prod start) outShape
        (rowMajorStrides outShape) a aShape aStrides dim).getD i 0
      = (List.range (aShape.getD dim 0)).foldl
          (fun s j =>
            fn s (a.getD (index_to_position ((to_index i outShape).set dim j) aStrides) 0))
          start := by
  rw [reduce_getD fn (List.replicate outShape.prod start) a outShape aShape aStrides dim i
      hi (by simpa using hi),
    getD_replicate_lt outShape.prod start i hi]

/-- Witness for C2 at the non-commutative function `fn x y = x - y`: on the
`[2,3]` input with rows `[1,2,3]` and `[4,5,6]`, reducing axis 1, output
cell 1 holds `((0 - 4) - 5) - 6 = -15`, the ascending-order left fold. -/
theorem c2_reduce_fold_order_witness :
    (_reduce (fun x y => x - y) (List.replicate ([2, 1] : Shape).prod 0) [2, 1]
        (rowMajorStrides [2, 1]) [1, 2, 3, 4, 5, 6] [2, 3] [3, 1] 1).getD 1 0 = -15 :=
  (c2_reduce_fold_order (fun x y => x - y) 0 [1, 2, 3, 4, 5, 6] [2, 3] [3, 1] 1 [2, 1]
      (by decide) (by decide) 1 (by decide)).trans (by
    norm_num [to_index, index_to_position, List.range_succ, rowMajorStrides])

/-- C6 counterexample: reduce-with-addition (`start = 0`, axis 1) on the
`[2,3]` tensor with rows `[1,2,3]` and `[4,5,6]` does not produce the
claimed storage `[6.0, 18.0]` (the second row sums to 15, not 18). -/
theorem c6_reduce_example_counterexample :
    (FastOps.reduce (fun x y => x + y) 0 ⟨[1, 2, 3, 4, 5, 6], [2, 3], [3, 1]⟩ 1).storage
      ≠ [6, 18] := by
  norm_num [FastOps.reduce, zeros, _reduce, rowMajorStrides, to_index, index_to_position,
    List.range_succ]
  decide

/-- C6 amended: reduce with addition, `start = 0.0`, along axis 1, applied
to a `[2,3]` tensor whose rows are `[1,2,3]` and `[4,5,6]`, returns a tensor
of shape `[2,1]` with values `[6.0, 15.0]`. -/
theorem c6_reduce_example :
    (FastOps.reduce (fun x y => x + y) 0 ⟨[1, 2, 3, 4, 5, 6], [2, 3], [3, 1]⟩ 1).storage
        = [6, 15]
      ∧ (FastOps.reduce (fun x y => x + y) 0
          ⟨[1, 2, 3, 4, 5, 6], [2, 3], [3, 1]⟩ 1).shape = [2, 1] := by
  constructor
  · norm_num [FastOps.reduce, zeros, _reduce, rowMajorStrides, to_index, index_to_position,
      List.range_succ]
    decide
  · decide

theorem foldl_acc_fixed {β : Type} (l : List β) (init : Storage) :
    l.foldl (fun acc _ => acc) init = init := by
  induction l with
  | nil => rfl
  | cons x xs ih => simpa using ih

/-- C9: for every reduce call whose reduced axis has extent 0 in the input,
the inner fold performs zero steps and every entry of the output storage
retains the start value. -/
theorem c9_reduce_empty_axis (fn : ℚ → ℚ → ℚ) (start : ℚ) (a : Tensor) (dim : ℕ)
    (hdim : dim < a.shape.length) (hzero : a.shape.getD dim 0 = 0) :
    (FastOps.reduce fn start a dim).storage
      = List.replicate (a.shape.set dim 1).prod start := by
  simp only [FastOps.reduce, zeros, _reduce, hzero, List.range_zero, List.foldl_nil,
    List.length_replicate]
  exact foldl_acc_fixed _ _

/-- Witness for C9: reducing the empty axis of a `[2,0,3]` tensor with
`start = 7` yields a `[2,1,3]` output whose storage is six copies of 7. -/
theorem c9_reduce_empty_axis_witness :
    (FastOps.reduce (fun x y => x - y) 7 ⟨[], [2, 0, 3], [0, 3, 1]⟩ 1).storage
      = List.replicate 6 7 :=
  (c9_reduce_empty_axis (fun x y => x - y) 7 ⟨[], [2, 0, 3], [0, 3, 1]⟩ 1 (by decide)
      (by decide)).trans (by norm_num)

/-- C10: the public reduce operation allocates its output tensor (shape
equal to the input shape with the reduced axis set to 1) and pre-fills its
storage with `start` before invoking the kernel, so each returned cell is
the fold over the reduced axis seeded by `start` with no pre-initialization
by the caller. -/
theorem c10_reduce_prefill_seeded (fn : ℚ → ℚ → ℚ) (start : ℚ) (a : Tensor) (dim : ℕ)
    (hdim : dim < a.shape.length) (i : ℕ) (hi : i < (a.shape.set dim 1).prod) :
    (FastOps.reduce fn start a dim).shape = a.shape.set dim 1
      ∧ (FastOps.reduce fn start a dim).storage.getD i 0
        = (List.range (a.shape.getD dim 0)).foldl
            (fun s j =>
              fn s (a.storage.getD
                (index_to_position ((to_index i (a.shape.set dim 1)).set dim j)
                  a.strides) 0))
            start := by
  refine ⟨rfl, ?_⟩
  show (_reduce fn
      (List.replicate (List.replicate (a.shape.set dim 1).prod (0 : ℚ)).length start)
      (a.shape.set dim 1) (rowMajorStrides (a.shape.set dim 1))
      a.storage a.shape a.strides dim).getD i 0 = _
  rw [List.length_replicate,
    reduce_getD fn (List.replicate (a.shape.set dim 1).prod start) a.storage
      (a.shape.set dim 1) a.shape a.strides dim i hi (by simpa using hi),
    getD_replicate_lt _ start i hi]

/-- Witness for C10 at the non-commutative function `fn x y = x - y` on the
`[2,3]` tensor with rows `[1,2,3]` and `[4,5,6]`: the returned shape is
`[2,1]` and cell 1 is `((0 - 4) - 5) - 6 = -15` without any caller-side
pre-initialization. -/
theorem c10_reduce_prefill_seeded_witness :
    (FastOps.reduce (fun x y => x - y) 0
        ⟨[1, 2, 3, 4, 5, 6], [2, 3], [3, 1]⟩ 1).shape = [2, 1]
      ∧ (FastOps.reduce (fun x y => x - y) 0
          ⟨[1, 2, 3, 4, 5, 6], [2, 3], [3, 1]⟩ 1).storage.getD 1 0 = -15 := by
  have h := c10_reduce_prefill_seeded (fun x y => x - y) 0
    ⟨[1, 2, 3, 4, 5, 6], [2, 3], [3, 1]⟩ 1 (by decide) 1 (by decide)
  exact ⟨h.1.trans (by decide), h.2.trans (by
    norm_num [to_index, index_to_position, List.range_succ, rowMajorStrides])⟩

/-! ### Claim C3 (map fast path vs general path) -/

theorem length_foldl_set {ι : Type} (f : ι → ℕ) (v : ι → Storage → ℚ) (l : List ι)
    (init : Storage) :
    (l.foldl (fun acc x => acc.set (f x) (v x acc)) init).length = init.length := by
  induction l generalizing init with
  | nil => rfl
  | cons y ys ih => rw [List.foldl_cons, ih, List.length_set]

/-- On stride-matched calls `_map` reduces to the direct flat-position
loop. -/
theorem map_fast_eq (fn : ℚ → ℚ) (out₀ inS : Storage) (outShape inShape : Shape)
    (strides : Strides) :
    _map fn out₀ outShape strides inS inShape strides
      = (List.range outShape.prod).foldl (fun acc i => acc.set i (fn (inS.getD i 0))) out₀ := by
  simp only [_map, eq_self_iff_true, if_true]

/-- On same-shape row-major calls `_map_general` also reduces to the direct
flat-position loop. -/
theorem map_general_eq (fn : ℚ → ℚ) (out₀ inS : Storage) (sh : Shape) :
    _map_general fn out₀ sh (rowMajorStrides sh) inS sh (rowMajorStrides sh)
      = (List.range sh.prod).foldl (fun acc i => acc.set i (fn (inS.getD i 0))) out₀ := by
  simp only [_map_general]
  refine List.foldl_ext _ _ out₀ (fun acc k hk => ?_)
  rw [broadcast_index_self _ _ (to_index_valid sh k (List.mem_range.1 hk)),
    index_to_position_to_index sh k (List.mem_range.1 hk)]

/-- C3 counterexample: a kernel map call whose input strides equal the
output strides element-for-element (`[3,1]` on both sides, equal rank) but
whose shapes differ (`[1,3]` input under a `[2,3]` output, a view into a
larger buffer) takes the fast path and produces different output storage
contents than the general path: `[10,20,30,40,50,60]` versus the
broadcast-correct `[10,20,30,10,20,30]`. -/
theorem c3_map_fastpath_counterexample :
    _map (fun x => x) (List.replicate 6 0) [2, 3] [3, 1]
        [10, 20, 30, 40, 50, 60] [1, 3] [3, 1]
      ≠ _map_general (fun x => x) (List.replicate 6 0) [2, 3] [3, 1]
          [10, 20, 30, 40, 50, 60] [1, 3] [3, 1] := by
  norm_num [_map, _map_general, to_index, index_to_position, broadcast_index,
    List.range_succ]
  decide

/-- C3 amended: for every map call where the input shape equals the output
shape and both strides are the contiguous row-major strides of that shape
(the configuration under which `FastOps.map` takes the fast path), the fast
path produces the same output storage contents as the general path, and map
with the identity function reproduces the input storage exactly. -/
theorem c3_map_fastpath_equiv (fn : ℚ → ℚ) (out₀ inS : Storage) (sh : Shape)
    (hO : out₀.length = sh.prod) (hI : inS.length = sh.prod) :
    _map fn out₀ sh (rowMajorStrides sh) inS sh (rowMajorStrides sh)
        = _map_general fn out₀ sh (rowMajorStrides sh) inS sh (rowMajorStrides sh)
      ∧ _map (fun x => x) out₀ sh (rowMajorStrides sh) inS sh (rowMajorStrides sh)
        = inS := by
  constructor
  · rw [map_fast_eq, map_general_eq]
  · rw [map_fast_eq]
    have hlen : ((List.range sh.prod).foldl
        (fun acc i => acc.set i ((fun x => x) (inS.getD i 0))) out₀).length
          = out₀.length :=
      length_foldl_set (fun i => i) (fun i _ => (fun x => x) (inS.getD i 0)) _ out₀
    apply List.ext_getElem
    · rw [hlen, hO, hI]
    · intro q h1 h2
      rw [← List.getD_eq_getElem _ 0 h1, ← List.getD_eq_getElem _ 0 h2]
      have hq : q < sh.prod := by rw [hlen, hO] at h1; exact h1
      exact getD_foldl_range_write (fun i => (fun x => x) (inS.getD i 0)) sh.prod out₀ q
        hq (by omega)

/-- Witness for C3 (amended) on a concrete `[2,2]` shape. -/
theorem c3_map_fastpath_equiv_witness :
    _map (fun x => x * 2) [0, 0, 0, 0] [2, 2] (rowMajorStrides [2, 2])
          [5, 6, 7, 8] [2, 2] (rowMajorStrides [2, 2])
        = _map_general (fun x => x * 2) [0, 0, 0, 0] [2, 2] (rowMajorStrides [2, 2])
          [5, 6, 7, 8] [2, 2] (rowMajorStrides [2, 2])
      ∧ _map (fun x => x) [0, 0, 0, 0] [2, 2] (rowMajorStrides [2, 2])
          [5, 6, 7, 8] [2, 2] (rowMajorStrides [2, 2]) = [5, 6, 7, 8] :=
  c3_map_fastpath_equiv (fun x => x * 2) [0, 0, 0, 0] [5, 6, 7, 8] [2, 2]
    (by decide) (by decide)

/-! ### Claim C4 (zip broadcast correctness) -/

/-- C4: for every zip call whose output shape is the broadcast of the two
input shapes (with contiguous row-major output strides), the output entry at
every valid coordinate `c` equals `fn` applied to `a` and `b` read at the
broadcast-projected coordinates of `c`. -/
theorem c4_zip_broadcast_entries (fn : ℚ → ℚ → ℚ) (out₀ a b : Storage)
    (outShape aShape bShape : Shape) (aStrides bStrides : Strides)
    (hbc : shape_broadcast aShape bShape = some outShape)
    (hlen : out₀.length = outShape.prod)
    (c : List ℕ) (hc : List.Forall₂ (· < ·) c outShape) :
    (_zip fn out₀ outShape (rowMajorStrides outShape) a aShape aStrides
        b bShape bStrides).getD (index_to_position c (rowMajorStrides outShape)) 0
      = fn (a.getD (index_to_position (broadcast_index c outShape aShape) aStrides) 0)
           (b.getD (index_to_position (broadcast_index c outShape bShape) bStrides) 0) := by
  have hq : index_to_position c (rowMajorStrides outShape) < outShape.prod :=
    index_to_position_lt outShape c hc
  rw [zip_getD fn out₀ a b outShape aShape bShape aStrides bStrides _ hq (by omega),
    to_index_index_to_position outShape c hc]
  by_cases hC : (aStrides = rowMajorStrides outShape ∧ bStrides = rowMajorStrides outShape)
      ∧ aShape = bShape
  · rw [if_pos hC]
    obtain ⟨⟨hA, hB⟩, hAB⟩ := hC
    have hbOut : bShape = outShape := by
      rw [hAB] at hbc
      exact Option.some.inj ((shape_broadcast_self bShape).symm.trans hbc)
    have haOut : aShape = outShape := hAB.trans hbOut
    rw [haOut, hbOut, hA, hB, broadcast_index_self c outShape hc]
  · rw [if_neg hC]

/-- Witness for C4 at the spec's example: a `[2,3]` tensor of ones plus a
`[3]` tensor of twos, read at coordinate `[1,2]`, gives `3`. -/
theorem c4_zip_broadcast_entries_witness :
    (_zip (fun x y => x + y) (List.replicate 6 0) [2, 3] (rowMajorStrides [2, 3])
        (List.replicate 6 1) [2, 3] [3, 1] (List.replicate 3 2) [3] [1]).getD
        (index_to_position [1, 2] (rowMajorStrides [2, 3])) 0 = 3 :=
  (c4_zip_broadcast_entries (fun x y => x + y) (List.replicate 6 0) (List.replicate 6 1)
      (List.replicate 3 2) [2, 3] [2, 3] [3] [3, 1] [1] (by decide) (by decide) [1, 2]
      (List.Forall₂.cons (by decide)
        (List.Forall₂.cons (by decide) List.Forall₂.nil))).trans
    (by norm_num [broadcast_index, index_to_position, rowMajorStrides])

/-! ### Claims C5 and C8 (matrix_multiply call setup) -/

theorem shape_broadcast_length (x y z : Shape) (h : shape_broadcast x y = some z) :
    z.length = max x.length y.length := by
  simp only [shape_broadcast] at h
  by_cases hc : (List.zip (List.replicate (max x.length y.length - x.length) 1 ++ x)
      (List.replicate (max x.length y.length - y.length) 1 ++ y)).all
      (fun p => p.1 = p.2 || p.1 = 1 || p.2 = 1) = true
  · rw [if_pos hc] at h
    rw [← Option.some.inj h]
    simp only [List.length_zipWith, List.length_append, List.length_replicate]
    omega
  · rw [if_neg hc] at h
    exact absurd h (by simp)

/-- Padding the left operand of a broadcast with leading 1s does not change
the result when the right operand is at least as long. -/
theorem shape_broadcast_pad_left (k : ℕ) (x y : Shape) (h : x.length + k ≤ y.length) :
    shape_broadcast (List.replicate k 1 ++ x) y = shape_broadcast x y := by
  simp only [shape_broadcast, List.length_append, List.length_replicate]
  have hn1 : max (k + x.length) y.length = y.length := by omega
  have hn2 : max x.length y.length = y.length := by omega
  rw [hn1, hn2]
  have hrep : List.replicate (y.length - (k + x.length)) (1 : ℕ) ++
        (List.replicate k 1 ++ x)
      = List.replicate (y.length - x.length) 1 ++ x := by
    rw [← List.append_assoc, ← List.replicate_add]
    congr 2
    omega
  rw [hrep]

/-- Padding the right operand of a broadcast with leading 1s does not change
the result when the left operand is at least as long. -/
theorem shape_broadcast_pad_right (k : ℕ) (x y : Shape) (h : y.length + k ≤ x.length) :
    shape_broadcast x (List.replicate k 1 ++ y) = shape_broadcast x y := by
  simp only [shape_broadcast, List.length_append, List.length_replicate]
  have hn1 : max x.length (k + y.length) = x.length := by omega
  have hn2 : max x.length y.length = x.length := by omega
  rw [hn1, hn2]
  have hrep : List.replicate (x.length - (k + y.length)) (1 : ℕ) ++
        (List.replicate k 1 ++ y)
      = List.replicate (x.length - y.length) 1 ++ y := by
    rw [← List.append_assoc, ← List.replicate_add]
    congr 2
    omega
  rw [hrep]

theorem shape_broadcast_one_left (y : Shape) (hy : 1 ≤ y.length) :
    shape_broadcast [1] y = shape_broadcast [] y := by
  have h := shape_broadcast_pad_left 1 [] y (by simpa using hy)
  simpa using h

theorem shape_broadcast_one_right (x : Shape) (hx : 1 ≤ x.length) :
    shape_broadcast x [1] = shape_broadcast x [] := by
  have h := shape_broadcast_pad_right 1 x [] (by simpa using hx)
  simpa using h

theorem promote2_shape_of_rank2 (t : Tensor) (h : t.shape.length = 2) :
    (FastOps.promote2 t).shape = [1, t.shape.getD 0 0, t.shape.getD 1 0] := by
  simp [FastOps.promote2, h, view]

theorem promote2_of_not_rank2 (t : Tensor) (h : ¬t.shape.length = 2) :
    FastOps.promote2 t = t := by
  simp [FastOps.promote2, h]

theorem promote2_getD_last (t : Tensor) (h : 2 ≤ t.shape.length) :
    (FastOps.promote2 t).shape.getD ((FastOps.promote2 t).shape.length - 1) 0
      = t.shape.getD (t.shape.length - 1) 0 := by
  by_cases h2 : t.shape.length = 2
  · rw [promote2_shape_of_rank2 t h2, h2]
    simp [List.getD]
  · rw [promote2_of_not_rank2 t h2]

theorem promote2_getD_secondlast (t : Tensor) (h : 2 ≤ t.shape.length) :
    (FastOps.promote2 t).shape.getD ((FastOps.promote2 t).shape.length - 2) 0
      = t.shape.getD (t.shape.length - 2) 0 := by
  by_cases h2 : t.shape.length = 2
  · rw [promote2_shape_of_rank2 t h2, h2]
    simp [List.getD]
  · rw [promote2_of_not_rank2 t h2]

theorem promote2_take (t : Tensor) :
    (FastOps.promote2 t).shape.take ((FastOps.promote2 t).shape.length - 2)
      = if t.shape.length = 2 then [1] else t.shape.take (t.shape.length - 2) := by
  by_cases h2 : t.shape.length = 2
  · rw [promote2_shape_of_rank2 t h2, if_pos h2]
    rfl
  · rw [promote2_of_not_rank2 t h2, if_neg h2]

/-- Promotion does not change whether the batch prefixes broadcast. -/
theorem promoted_prefix_isSome (a b : Tensor) (ha : 2 ≤ a.shape.length)
    (hb : 2 ≤ b.shape.length) :
    (shape_broadcast ((FastOps.promote2 a).shape.take ((FastOps.promote2 a).shape.length - 2))
        ((FastOps.promote2 b).shape.take ((FastOps.promote2 b).shape.length - 2))).isSome
      = (shape_broadcast (a.shape.take (a.shape.length - 2))
          (b.shape.take (b.shape.length - 2))).isSome := by
  rw [promote2_take a, promote2_take b]
  by_cases ha2 : a.shape.length = 2 <;> by_cases hb2 : b.shape.length = 2
  · rw [if_pos ha2, if_pos hb2, ha2, hb2]
    rfl
  · rw [if_pos ha2, if_neg hb2, ha2]
    have hlb : 1 ≤ (b.shape.take (b.shape.length - 2)).length := by
      simp only [List.length_take]
      omega
    rw [shape_broadcast_one_left _ hlb]
    rfl
  · rw [if_neg ha2, if_pos hb2, hb2]
    have hla : 1 ≤ (a.shape.take (a.shape.length - 2)).length := by
      simp only [List.length_take]
      omega
    rw [shape_broadcast_one_right _ hla]
    rfl
  · rw [if_neg ha2, if_neg hb2]

/-- C5 counterexample: a pair with mismatched inner dimensions (3 vs 4)
whose batch prefixes also fail to broadcast (2 vs 3) fails with
`ShapeMismatch` — the broadcast of the batch prefixes is checked first — and
not with `DimensionMismatch` as the claim requires for every mismatched
pair. -/
theorem c5_matmul_error_counterexample :
    ((⟨List.replicate 30 1, [2, 5, 3], [15, 3, 1]⟩ : Tensor).shape.getD 2 0
        ≠ (⟨List.replicate 84 1, [3, 4, 7], [28, 7, 1]⟩ : Tensor).shape.getD 1 0)
      ∧ FastOps.matrix_multiply ⟨List.replicate 30 1, [2, 5, 3], [15, 3, 1]⟩
          ⟨List.replicate 84 1, [3, 4, 7], [28, 7, 1]⟩
        ≠ Except.error KernelError.DimensionMismatch := by
  constructor
  · decide
  · decide

/-- C5 amended: for every pair of tensors of rank at least 2 with
`a.shape[-1] ≠ b.shape[-2]`, `matrix_multiply` fails during call setup —
before any kernel loop body executes, so no output storage receives any
partial write — with `DimensionMismatch` when the batch prefixes
broadcast, and with `ShapeMismatch` (raised by the earlier batch-prefix
broadcast) otherwise. -/
theorem c5_matmul_dim_mismatch (a b : Tensor) (ha : 2 ≤ a.shape.length)
    (hb : 2 ≤ b.shape.length)
    (hmis : a.shape.getD (a.shape.length - 1) 0 ≠ b.shape.getD (b.shape.length - 2) 0) :
    FastOps.matrix_multiply a b
      = Except.error
          (if (shape_broadcast (a.shape.take (a.shape.length - 2))
              (b.shape.take (b.shape.length - 2))).isSome
           then KernelError.DimensionMismatch else KernelError.ShapeMismatch) := by
  have hmis' : (FastOps.promote2 a).shape.getD ((FastOps.promote2 a).shape.length - 1) 0
      ≠ (FastOps.promote2 b).shape.getD ((FastOps.promote2 b).shape.length - 2) 0 := by
    rw [promote2_getD_last a ha, promote2_getD_secondlast b hb]
    exact hmis
  have hiso := promoted_prefix_isSome a b ha hb
  simp only [FastOps.matrix_multiply]
  cases hsb : shape_broadcast
      ((FastOps.promote2 a).shape.take ((FastOps.promote2 a).shape.length - 2))
      ((FastOps.promote2 b).shape.take ((FastOps.promote2 b).shape.length - 2)) with
  | none =>
    rw [hsb] at hiso
    rw [if_neg (by rw [← hiso]; simp)]
  | some ls0 =>
    rw [hsb] at hiso
    rw [if_pos (by rw [← hiso]; simp)]
    dsimp only
    rw [if_pos hmis']

/-- Witness for C5 (amended) on `[1,2,3]` times `[1,4,5]` tensors: the batch
prefixes broadcast, the inner dimensions 3 and 4 disagree, and the call
fails with `DimensionMismatch`. -/
theorem c5_matmul_dim_mismatch_witness :
    FastOps.matrix_multiply ⟨List.replicate 6 1, [1, 2, 3], [6, 3, 1]⟩
        ⟨List.replicate 20 1, [1, 4, 5], [20, 5, 1]⟩
      = Except.error KernelError.DimensionMismatch :=
  (c5_matmul_dim_mismatch ⟨List.replicate 6 1, [1, 2, 3], [6, 3, 1]⟩
      ⟨List.replicate 20 1, [1, 4, 5], [20, 5, 1]⟩ (by decide) (by decide)
      (by decide)).trans (by decide)

/-- Characterization of a successful `matrix_multiply` call: when the
promoted batch prefixes broadcast and the inner dimensions agree, the call
returns the kernel result on a freshly allocated contiguous output of shape
`ls`, squeezed to `[ls[1], ls[2]]` when both inputs were rank 2. -/
theorem matrix_multiply_ok (a b : Tensor) (ls0 ls : Shape)
    (hsb : shape_broadcast
        ((FastOps.promote2 a).shape.take ((FastOps.promote2 a).shape.length - 2))
        ((FastOps.promote2 b).shape.take ((FastOps.promote2 b).shape.length - 2))
      = some ls0)
    (heq : (FastOps.promote2 a).shape.getD ((FastOps.promote2 a).shape.length - 1) 0
        = (FastOps.promote2 b).shape.getD ((FastOps.promote2 b).shape.length - 2) 0)
    (hls : ls = ls0 ++
        [(FastOps.promote2 a).shape.getD ((FastOps.promote2 a).shape.length - 2) 0,
          (FastOps.promote2 b).shape.getD ((FastOps.promote2 b).shape.length - 1) 0]) :
    FastOps.matrix_multiply a b = Except.ok
      (if a.shape.length = 2 ∧ b.shape.length = 2 then
        view
          ⟨_tensor_matrix_multiply (List.replicate ls.prod 0) ls (rowMajorStrides ls)
              (FastOps.promote2 a).storage (FastOps.promote2 a).shape
              (FastOps.promote2 a).strides
              (FastOps.promote2 b).storage (FastOps.promote2 b).shape
              (FastOps.promote2 b).strides,
            ls, rowMajorStrides ls⟩
          [ls.getD 1 0, ls.getD 2 0]
      else
        ⟨_tensor_matrix_multiply (List.replicate ls.prod 0) ls (rowMajorStrides ls)
            (FastOps.promote2 a).storage (FastOps.promote2 a).shape
            (FastOps.promote2 a).strides
            (FastOps.promote2 b).storage (FastOps.promote2 b).shape
            (FastOps.promote2 b).strides,
          ls, rowMajorStrides ls⟩) := by
  subst hls
  simp only [FastOps.matrix_multiply]
  rw [hsb]
  dsimp only
  rw [if_neg (not_not_intro heq)]
  rfl

/-- C8: `matrix_multiply` promotes rank-2 inputs to rank-3 by prepending a
batch dimension of size 1; on compatible inputs the result shape is the
broadcast of the two (original) batch prefixes followed by `a.shape[-2]`
and `b.shape[-1]`; and the result has rank 2 exactly when both original
inputs were rank 2 (the squeeze case). -/
theorem c8_matmul_promote_shape_squeeze (a b : Tensor) (ha : 2 ≤ a.shape.length)
    (hb : 2 ≤ b.shape.length) (bp : Shape)
    (hbp : shape_broadcast (a.shape.take (a.shape.length - 2))
        (b.shape.take (b.shape.length - 2)) = some bp)
    (hinner : a.shape.getD (a.shape.length - 1) 0
      = b.shape.getD (b.shape.length - 2) 0) :
    ∃ t, FastOps.matrix_multiply a b = Except.ok t
      ∧ t.shape = bp ++ [a.shape.getD (a.shape.length - 2) 0,
          b.shape.getD (b.shape.length - 1) 0]
      ∧ (t.shape.length = 2 ↔ (a.shape.length = 2 ∧ b.shape.length = 2)) := by
  have heq : (FastOps.promote2 a).shape.getD ((FastOps.promote2 a).shape.length - 1) 0
      = (FastOps.promote2 b).shape.getD ((FastOps.promote2 b).shape.length - 2) 0 := by
    rw [promote2_getD_last a ha, promote2_getD_secondlast b hb]
    exact hinner
  have hA2 := promote2_getD_secondlast a ha
  have hB1 := promote2_getD_last b hb
  by_cases ha2 : a.shape.length = 2 <;> by_cases hb2 : b.shape.length = 2
  · -- both rank 2: squeeze
    have hbp0 : bp = [] := by
      rw [ha2, hb2] at hbp
      simp only [Nat.sub_self, List.take_zero] at hbp
      exact (Option.some.inj hbp).symm
    have hsb : shape_broadcast
        ((FastOps.promote2 a).shape.take ((FastOps.promote2 a).shape.length - 2))
        ((FastOps.promote2 b).shape.take ((FastOps.promote2 b).shape.length - 2))
        = some [1] := by
      rw [promote2_take a, promote2_take b, if_pos ha2, if_pos hb2]
      rfl
    rw [matrix_multiply_ok a b [1] _ hsb heq rfl]
    refine ⟨_, rfl, ?_, ?_⟩
    · rw [if_pos ⟨ha2, hb2⟩]
      simp only [view, List.cons_append, List.nil_append, List.getD_cons_succ,
        List.getD_cons_zero]
      rw [hA2, hB1, hbp0, List.nil_append]
    · rw [if_pos ⟨ha2, hb2⟩]
      simp only [view]
      simp [ha2, hb2]
  · -- a rank 2, b rank ≥ 3
    have hsb : shape_broadcast
        ((FastOps.promote2 a).shape.take ((FastOps.promote2 a).shape.length - 2))
        ((FastOps.promote2 b).shape.take ((FastOps.promote2 b).shape.length - 2))
        = some bp := by
      rw [promote2_take a, promote2_take b, if_pos ha2, if_neg hb2,
        shape_broadcast_one_left _ (by simp only [List.length_take]; omega)]
      have hta : a.shape.take (a.shape.length - 2) = [] := by
        rw [ha2]
        rfl
      exact hta ▸ hbp
    rw [matrix_multiply_ok a b bp _ hsb heq rfl]
    have hnot : ¬(a.shape.length = 2 ∧ b.shape.length = 2) := fun h => hb2 h.2
    refine ⟨_, rfl, ?_, ?_⟩
    · rw [if_neg hnot]
      show bp ++ [_, _] = _
      rw [hA2, hB1]
    · rw [if_neg hnot]
      have hlbp := shape_broadcast_length _ _ _ hbp
      simp only [List.length_take] at hlbp
      show (bp ++ [_, _]).length = 2 ↔ _
      simp only [List.length_append, List.length_cons, List.length_nil]
      constructor
      · intro h
        omega
      · rintro ⟨_, h2⟩
        exact absurd h2 hb2
  · -- b rank 2, a rank ≥ 3
    have hsb : shape_broadcast
        ((FastOps.promote2 a).shape.take ((FastOps.promote2 a).shape.length - 2))
        ((FastOps.promote2 b).shape.take ((FastOps.promote2 b).shape.length - 2))
        = some bp := by
      rw [promote2_take a, promote2_take b, if_neg ha2, if_pos hb2,
        shape_broadcast_one_right _ (by simp only [List.length_take]; omega)]
      have htb : b.shape.take (b.shape.length - 2) = [] := by
        rw [hb2]
        rfl
      exact htb ▸ hbp
    rw [matrix_multiply_ok a b bp _ hsb heq rfl]
    have hnot : ¬(a.shape.length = 2 ∧ b.shape.length = 2) := fun h => ha2 h.1
    refine ⟨_, rfl, ?_, ?_⟩
    · rw [if_neg hnot]
      show bp ++ [_, _] = _
      rw [hA2, hB1]
    · rw [if_neg hnot]
      have hlbp := shape_broadcast_length _ _ _ hbp
      simp only [List.length_take] at hlbp
      show (bp ++ [_, _]).length = 2 ↔ _
      simp only [List.length_append, List.length_cons, List.length_nil]
      constructor
      · intro h
        omega
      · rintro ⟨h1, _⟩
        exact absurd h1 ha2
  · -- both rank ≥ 3
    have hsb : shape_broadcast
        ((FastOps.promote2 a).shape.take ((FastOps.promote2 a).shape.length - 2))
        ((FastOps.promote2 b).shape.take ((FastOps.promote2 b).shape.length - 2))
        = some bp := by
      rw [promote2_take a, promote2_take b, if_neg ha2, if_neg hb2]
      exact hbp
    rw [matrix_multiply_ok a b bp _ hsb heq rfl]
    have hnot : ¬(a.shape.length = 2 ∧ b.shape.length = 2) := fun h => ha2 h.1
    refine ⟨_, rfl, ?_, ?_⟩
    · rw [if_neg hnot]
      show bp ++ [_, _] = _
      rw [hA2, hB1]
    · rw [if_neg hnot]
      have hlbp := shape_broadcast_length _ _ _ hbp
      simp only [List.length_take] at hlbp
      show (bp ++ [_, _]).length = 2 ↔ _
      simp only [List.length_append, List.length_cons, List.length_nil]
      constructor
      · intro h
        omega
      · rintro ⟨h1, _⟩
        exact absurd h1 ha2

/-- Witness for C8 at the spec's batch-broadcast example: a `[1,2,3]` tensor
times a `[4,3,2]` tensor yields a `[4,2,2]` output (no squeeze). -/
theorem c8_matmul_promote_shape_squeeze_witness :
    ∃ t, FastOps.matrix_multiply ⟨List.replicate 6 1, [1, 2, 3], [6, 3, 1]⟩
        ⟨List.replicate 24 1, [4, 3, 2], [6, 2, 1]⟩ = Except.ok t
      ∧ t.shape = [4] ++ [2, 2] ∧ ¬t.shape.length = 2 := by
  obtain ⟨t, h1, h2, h3⟩ := c8_matmul_promote_shape_squeeze
    ⟨List.replicate 6 1, [1, 2, 3], [6, 3, 1]⟩
    ⟨List.replicate 24 1, [4, 3, 2], [6, 2, 1]⟩ (by decide) (by decide) [4] (by decide)
    (by decide)
  refine ⟨t, h1, by simpa using h2, fun hlen => ?_⟩
  have hcontra := h3.1 hlen
  simp at hcontra

/-! ### Claim C7 (frame: kernels write only their designated output) -/

/-- The `_map` kernel with the input buffer threaded through the loop state
as the heap it lives in: each iteration reads the threaded input and writes
only the out component, mirroring the two buffer accesses of the source
line by line. -/
def _map_state (fn : ℚ → ℚ) (out : Storage) (outShape : Shape) (outStrides : Strides)
    (inStorage : Storage) (inShape : Shape) (inStrides : Strides) :
    Storage × Storage :=
  (List.range outShape.prod).foldl
    (fun st i =>
      (if inStrides = outStrides then
        st.1.set i (fn (st.2.getD i 0))
      else
        let outIndex := to_index i outShape
        let inIndex := broadcast_index outIndex outShape inShape
        let o := index_to_position outIndex outStrides
        let j := index_to_position inIndex inStrides
        st.1.set o (fn (st.2.getD j 0)), st.2))
    (out, inStorage)

/-- The `_zip` kernel with both input buffers threaded through the loop
state; each iteration writes only the out component. -/
def _zip_state (fn : ℚ → ℚ → ℚ) (out : Storage) (outShape : Shape)
    (outStrides : Strides) (a : Storage) (aShape : Shape) (aStrides : Strides)
    (b : Storage) (bShape : Shape) (bStrides : Strides) :
    Storage × Storage × Storage :=
  (List.range outShape.prod).foldl
    (fun st i =>
      (if (aStrides = outStrides ∧ bStrides = outStrides) ∧ aShape = bShape then
        st.1.set i (fn (st.2.1.getD i 0) (st.2.2.getD i 0))
      else
        let outIndex := to_index i outShape
        let o := index_to_position outIndex outStrides
        let aIndex := broadcast_index outIndex outShape aShape
        let j := index_to_position aIndex aStrides
        let bIndex := broadcast_index outIndex outShape bShape
        let k := index_to_position bIndex bStrides
        st.1.set o (fn (st.2.1.getD j 0) (st.2.2.getD k 0)), st.2))
    (out, a, b)

/-- The `_reduce` kernel with the input buffer threaded through the loop
state; the inner fold rewrites only the out component. -/
def _reduce_state (fn : ℚ → ℚ → ℚ) (out : Storage) (outShape : Shape)
    (outStrides : Strides) (a : Storage) (aShape : Shape) (aStrides : Strides)
    (reduceDim : ℕ) : Storage × Storage :=
  (List.range outShape.prod).foldl
    (fun st i =>
      ((let outIndex := to_index i outShape
        let o := index_to_position outIndex outStrides
        (List.range (aShape.getD reduceDim 0)).foldl
          (fun acc2 j =>
            let p := index_to_position (outIndex.set reduceDim j) aStrides
            acc2.set o (fn (acc2.getD o 0) (st.2.getD p 0)))
          st.1), st.2))
    (out, a)

/-- `_tensor_matrix_multiply` with both input buffers threaded through the
outer loop state; each iteration writes only the out component. -/
def _tensor_matrix_multiply_state (out : Storage) (outShape : Shape)
    (outStrides : Strides) (a : Storage) (aShape : Shape) (aStrides : Strides)
    (b : Storage) (bShape : Shape) (bStrides : Strides) :
    Storage × Storage × Storage :=
  let aBatchStride := if 1 < aShape.getD 0 0 then aStrides.getD 0 0 else 0
  let bBatchStride := if 1 < bShape.getD 0 0 then bStrides.getD 0 0 else 0
  (List.range (outShape.getD 0 0)).foldl
    (fun st n =>
      ((List.range (outShape.getD 1 0)).foldl
        (fun acc i =>
          (List.range (outShape.getD 2 0)).foldl
            (fun acc j =>
              let aPos := n * aBatchStride + i * aStrides.getD 1 0
              let bPos := n * bBatchStride + j * bStrides.getD 2 0
              let outPos := n * outStrides.getD 0 0 + i * outStrides.getD 1 0 +
                j * outStrides.getD 2 0
              let r := (List.range (aShape.getD (aShape.length - 1) 0)).foldl
                (fun s _ =>
                  (s.1 + st.2.1.getD s.2.1 0 * st.2.2.getD s.2.2 0,
                    s.2.1 + aStrides.getD 2 0, s.2.2 + bStrides.getD 1 0))
                ((0 : ℚ), aPos, bPos)
              acc.set outPos r.1)
            acc)
        st.1, st.2))
    (out, a, b)

/-- Folding a body that rebuilds the state as `(F s x, s.2)` never changes
the second component. -/
theorem foldl_pair_snd {σ τ ι : Type} (F : σ × τ → ι → σ) (l : List ι) (st : σ × τ) :
    (l.foldl (fun s x => (F s x, s.2)) st).2 = st.2 := by
  induction l generalizing st with
  | nil => rfl
  | cons y ys ih =>
    rw [List.foldl_cons]
    exact ih _

/-- Folding a body that rebuilds the state as `(F s x, s.2)` computes, in
its first component, the plain fold over the first component with the
second held fixed. -/
theorem foldl_pair_fst {σ τ ι : Type} (F : σ × τ → ι → σ) (l : List ι) (st : σ × τ) :
    (l.foldl (fun s x => (F s x, s.2)) st).1
      = l.foldl (fun o x => F (o, st.2) x) st.1 := by
  induction l generalizing st with
  | nil => rfl
  | cons y ys ih =>
    rw [List.foldl_cons, List.foldl_cons]
    exact ih (F st y, st.2)

/-- The threaded `_map_state` computes the same output as `_map`. -/
theorem map_state_fst (fn : ℚ → ℚ) (out : Storage) (outShape : Shape)
    (outStrides : Strides) (inStorage : Storage) (inShape : Shape)
    (inStrides : Strides) :
    (_map_state fn out outShape outStrides inStorage inShape inStrides).1
      = _map fn out outShape outStrides inStorage inShape inStrides := by
  simp only [_map_state, _map]
  rw [foldl_pair_fst]

/-- The threaded `_zip_state` computes the same output as `_zip`. -/
theorem zip_state_fst (fn : ℚ → ℚ → ℚ) (out : Storage) (outShape : Shape)
    (outStrides : Strides) (a : Storage) (aShape : Shape) (aStrides : Strides)
    (b : Storage) (bShape : Shape) (bStrides : Strides) :
    (_zip_state fn out outShape outStrides a aShape aStrides b bShape bStrides).1
      = _zip fn out outShape outStrides a aShape aStrides b bShape bStrides := by
  simp only [_zip_state, _zip]
  rw [foldl_pair_fst]

/-- The threaded `_reduce_state` computes the same output as `_reduce`. -/
theorem reduce_state_fst (fn : ℚ → ℚ → ℚ) (out : Storage) (outShape : Shape)
    (outStrides : Strides) (a : Storage) (aShape : Shape) (aStrides : Strides)
    (reduceDim : ℕ) :
    (_reduce_state fn out outShape outStrides a aShape aStrides reduceDim).1
      = _reduce fn out outShape outStrides a aShape aStrides reduceDim := by
  simp only [_reduce_state, _reduce]
  rw [foldl_pair_fst]

/-- The threaded `_tensor_matrix_multiply_state` computes the same output as
`_tensor_matrix_multiply`. -/
theorem tensor_matrix_multiply_state_fst (out : Storage) (outShape : Shape)
    (outStrides : Strides) (a : Storage) (aShape : Shape) (aStrides : Strides)
    (b : Storage) (bShape : Shape) (bStrides : Strides) :
    (_tensor_matrix_multiply_state out outShape outStrides a aShape aStrides
        b bShape bStrides).1
      = _tensor_matrix_multiply out outShape outStrides a aShape aStrides
          b bShape bStrides := by
  simp only [_tensor_matrix_multiply_state, _tensor_matrix_multiply]
  rw [foldl_pair_fst]

/-- C7: for every call of any of the four kernels, the input storage buffers
come out of the call unchanged — every write of every loop iteration targets
the designated output buffer only (buffers are modelled as disjoint;
aliasing an input buffer as the output is outside the model). -/
theorem c7_kernels_preserve_inputs
    (fn1 : ℚ → ℚ) (fn2 fn3 : ℚ → ℚ → ℚ)
    (out1 inS out2 a2 b2 out3 a3 out4 a4 b4 : Storage)
    (outShape1 inShape outShape2 aShape2 bShape2 outShape3 aShape3 outShape4
      aShape4 bShape4 : Shape)
    (outStrides1 inStrides outStrides2 aStrides2 bStrides2 outStrides3 aStrides3
      outStrides4 aStrides4 bStrides4 : Strides) (dim : ℕ) :
    (_map_state fn1 out1 outShape1 outStrides1 inS inShape inStrides).2 = inS
      ∧ (_zip_state fn2 out2 outShape2 outStrides2 a2 aShape2 aStrides2
          b2 bShape2 bStrides2).2 = (a2, b2)
      ∧ (_reduce_state fn3 out3 outShape3 outStrides3 a3 aShape3 aStrides3 dim).2 = a3
      ∧ (_tensor_matrix_multiply_state out4 outShape4 outStrides4 a4 aShape4 aStrides4
          b4 bShape4 bStrides4).2 = (a4, b4) := by
  refine ⟨?_, ?_, ?_, ?_⟩
  · exact foldl_pair_snd _ _ _
  · exact foldl_pair_snd _ _ _
  · exact foldl_pair_snd _ _ _
  · exact foldl_pair_snd _ _ _

end FastOpsModel
